import Mathlib

/-!
Verification of the tool-discovery and package-linking pipeline of the
cli-ai command-line utility (Go), against its natural-language specification.

The Go source is shallowly embedded: pure Go functions become Lean
functions; external effects (directory listings, subprocess invocations)
become explicit inputs describing their observable outcomes.  Go `int64`
sizes are modelled as `Int`; Go `string` as Lean `String`; a Go
`map[string]V` built by insertion is modelled as the function
`String → Option V` obtained by folding insertions (later insertions
overwrite earlier ones, which is exactly the Go map semantics; the parts
of the program modelled here never iterate over such a map's entries
except where noted).
-/

namespace CliAi

/-! ## Go string primitives used by the source

Implemented from scratch by structural recursion on character lists
(rather than through the opaque built-in String routines), so that every
definition evaluates inside the kernel on concrete inputs.  Go operates
on UTF-8 bytes; these versions operate on characters, which agrees with
the byte-level behaviour on every string arising here (the separator and
affix arguments are ASCII). -/

/-- Does the first list start with the second? -/
def startsWithL : List Char → List Char → Bool
  | _, [] => true
  | [], _ :: _ => false
  | c :: cs, p :: ps => c == p && startsWithL cs ps

/-- Go strings.HasPrefix. -/
def startsWithStr (s p : String) : Bool :=
  startsWithL s.toList p.toList

/-- Go strings.HasSuffix. -/
def endsWithStr (s p : String) : Bool :=
  startsWithL s.toList.reverse p.toList.reverse

/-- One scan step of Go strings.Contains: does the pattern occur in the
list at any position? -/
def containsL : List Char → List Char → Bool
  | [], p => p.isEmpty
  | l@(_ :: rest), p => startsWithL l p || containsL rest p

/-- Go strings.Contains. -/
def containsSub (s sub : String) : Bool :=
  containsL s.toList sub.toList

/-- Go strings.ToLower (ASCII case mapping; all strings compared after
lowering in this program are ASCII). -/
def goToLower (s : String) : String :=
  String.mk (s.toList.map Char.toLower)

/-- The splitting loop of Go strings.Split for a nonempty separator,
scanning left to right and consuming non-overlapping occurrences.  The
fuel argument bounds the recursion; it is called with the list length,
which suffices since every step consumes at least one character. -/
def splitOnAuxL (sep : List Char) : Nat → List Char → List Char → List (List Char)
  | _, acc, [] => [acc.reverse]
  | 0, acc, l => [acc.reverse ++ l]
  | fuel + 1, acc, c :: rest =>
    if startsWithL (c :: rest) sep then
      acc.reverse :: splitOnAuxL sep fuel [] ((c :: rest).drop sep.length)
    else splitOnAuxL sep fuel (c :: acc) rest

/-- Go strings.Split (for an empty separator Go explodes the string into
its characters; every separator used by this program is nonempty). -/
def splitOnStr (s sep : String) : List String :=
  if sep == "" then s.toList.map (fun c => String.mk [c])
  else (splitOnAuxL sep.toList s.toList.length [] s.toList).map String.mk

/-- Split at every character satisfying the predicate (empties kept). -/
def splitPred (p : Char → Bool) : List Char → List (List Char)
  | [] => [[]]
  | c :: cs =>
    match splitPred p cs with
    | [] => [[c]]
    | h :: t => if p c then [] :: h :: t else (c :: h) :: t

/-- Go strings.Fields: split around runs of whitespace, dropping empties. -/
def goFields (s : String) : List String :=
  ((splitPred Char.isWhitespace s.toList).map String.mk).filter (fun x => x != "")

/-- Go strings.TrimSpace (ASCII whitespace). -/
def trimSpaceStr (s : String) : String :=
  String.mk (((s.toList.dropWhile Char.isWhitespace).reverse.dropWhile
    Char.isWhitespace).reverse)

/-- Go len(s): the UTF-8 byte length. -/
def byteLen (s : String) : Nat :=
  (s.toList.map Char.utf8Size).sum

/-- Go strings.Trim(s, cutset): drop leading and trailing characters
belonging to cutset (here given as a list of characters). -/
def trimCut (s : String) (cut : List Char) : String :=
  String.mk ((((s.toList.dropWhile (fun c => cut.contains c)).reverse).dropWhile
    (fun c => cut.contains c)).reverse)

/-- Go strings.TrimSuffix(s, suf): drop suf from the end when present. -/
def trimSuf (s suf : String) : String :=
  if endsWithStr s suf then
    String.mk (s.toList.take (s.toList.length - suf.toList.length))
  else s

/-- Go strings.TrimPrefix(s, pre): drop pre from the start when present. -/
def trimPre (s pre : String) : String :=
  if startsWithStr s pre then String.mk (s.toList.drop pre.toList.length)
  else s

/-- Go filepath.Join(dir, name) for the directory strings appearing here
(no trailing separators, no cleaning needed): dir ++ "/" ++ name. -/
def joinPath (dir name : String) : String :=
  dir ++ "/" ++ name

/-- Go filepath.Base: the last element of the path after removing trailing
slashes; "." for the empty path, "/" when the path is all slashes. -/
def filepathBase (p : String) : String :=
  if p == "" then "."
  else
    let rev := p.toList.reverse.dropWhile (fun c => c == '/')
    if rev.isEmpty then "/"
    else String.mk ((rev.takeWhile (fun c => c != '/')).reverse)

/-! ## Data model (internal/models/tool.go, internal/packages/detector.go) -/

/-- PackageManager constants of internal/packages/detector.go
(NPM, Pip, Brew, Cargo, Go, Gem). -/
inductive PkgManager where
  | npm | pip | brew | cargo | golang | gem
deriving DecidableEq, Repr

/-- The string value of each PackageManager constant. -/
def PkgManager.str : PkgManager → String
  | .npm => "npm"
  | .pip => "pip"
  | .brew => "brew"
  | .cargo => "cargo"
  | .golang => "go"
  | .gem => "gem"

/-- Package of internal/packages/detector.go. -/
structure Package where
  name : String
  version : String
  manager : PkgManager
  binaries : List String := []
  location : String := ""
  globalInstall : Bool := false
deriving DecidableEq, Repr

/-- Tool of internal/models/tool.go. -/
structure Tool where
  name : String
  path : String
  description : String := ""
  version : String := ""
  helpText : String := ""
  isSymlink : Bool := false
  symlinkTo : String := ""
  size : Int := 0
  aliases : List String := []
  packageName : String := ""
  packageManager : String := ""
  packageVersion : String := ""
deriving DecidableEq, Repr

/-- ToolCatalog of internal/models/tool.go (generatedAt is the timestamp
string; time.Now is an input here). -/
structure ToolCatalog where
  totalTools : Nat
  totalPackages : Nat := 0
  paths : List String
  tools : List Tool
  packages : List Package := []
  generatedAt : String
deriving DecidableEq, Repr

/-! ## PathScanner (internal/scanner/scanner.go)

A directory listing is an input: each directory either fails to read
(ReadDir error, modelled as none) or yields entries in order.  Each
entry carries the data the scanner inspects: name, IsDir, the result of
entry.Info() (possibly an error), the mode bits, size, the symlink mode
bit, and the result of os.Readlink (none when it errors). -/

structure FsEntry where
  name : String
  isDir : Bool := false
  infoErr : Bool := false
  mode : Nat := 0o755
  size : Int := 0
  symlink : Bool := false
  linkTarget : Option String := none
deriving DecidableEq, Repr

structure FsDir where
  path : String
  entries : Option (List FsEntry)
deriving DecidableEq, Repr

/-- isExecutable of scanner.go: mode&0111 != 0. -/
def isExecutableMode (mode : Nat) : Bool :=
  mode &&& 0o111 != 0

/-- shouldIncludeTool of scanner.go: the inclusion filter applied to the
base filename. -/
def shouldIncludeTool (name : String) : Bool :=
  let lower := goToLower name
  if name == "__pycache__" || name == "." || name == ".." then false
  else if endsWithStr name ".d" then false
  else
    let excludePatterns := ["test", "demo", "bench", "example", "sample",
      "_test", "_demo", "_bench", "_example"]
    if excludePatterns.any (fun p => containsSub lower p) then false
    else if (endsWithStr lower "server" || endsWithStr lower "agent" ||
        endsWithStr lower "daemon" || endsWithStr lower "serverd") &&
        !(["transmission-daemon", "jupyter-server"].any (fun a => lower == a)) then
      false
    else
      let daemonExclusions := ["bluetoothd", "coreaudiod", "cfprefsd", "distnoted",
        "launchd", "notifyd", "securityd", "syslogd", "configd",
        "kerneleventd", "powerd", "cupsd", "httpd", "sshd",
        "snmpd", "named", "ntpd", "syslogd",
        "btleserver", "btleserveragent"]
      if daemonExclusions.any (fun d => lower == d) then false
      else
        let appleInternal := ["appleh", "assetcache", "bluetool", "bootcache",
          "createdom", "domcount", "domprint", "derez",
          "devtools", "directory", "enumval", "getfileinfo",
          "ioaccel", "iomfb", "iosdebug", "kernel",
          "pparse", "psviwriter", "password", "protocol",
          "redirect", "resmerger", "rez", "sax", "scmprint",
          "senumval", "safeeject", "setfile", "splitforks",
          "stdin", "svtav1", "wireless", "xinclude"]
        if appleInternal.any (fun p => startsWithStr lower p) then false
        else
          let systemInternals := ["mDNSResponder", "mDNSResponderHelper"]
          if systemInternals.any (fun i => name == i) then false
          else true

/-- One entry of the ScanAllDetailed inner loop: the checks applied in
source order (IsDir, inclusion filter, Info() error, executable bit,
seen map), producing the Tool built there when all pass. -/
def scanDetailedEntry (dir : String) (seen : List String) (e : FsEntry) :
    Option Tool :=
  if e.isDir then none
  else if !shouldIncludeTool e.name then none
  else if e.infoErr then none
  else if !isExecutableMode e.mode then none
  else if seen.contains e.name then none
  else
    let base : Tool := { name := e.name, path := joinPath dir e.name, size := e.size }
    some (if e.symlink then
      { base with isSymlink := true, symlinkTo := e.linkTarget.getD "" }
    else base)

/-- The ScanAllDetailed inner loop over one directory's entries, threading
the seen set; returns the tools found and the updated seen set. -/
def scanDetailedEntries (dir : String) :
    List FsEntry → List String → List Tool × List String
  | [], seen => ([], seen)
  | e :: es, seen =>
    match scanDetailedEntry dir seen e with
    | none => scanDetailedEntries dir es seen
    | some t =>
      let rest := scanDetailedEntries dir es (e.name :: seen)
      (t :: rest.1, rest.2)

/-- The ScanAllDetailed outer loop over directories (unreadable
directories are skipped). -/
def scanDetailedDirs : List FsDir → List String → List Tool
  | [], _ => []
  | d :: ds, seen =>
    match d.entries with
    | none => scanDetailedDirs ds seen
    | some es =>
      let r := scanDetailedEntries d.path es seen
      r.1 ++ scanDetailedDirs ds r.2

/-- ScanAllDetailed of scanner.go, over the given search-path directory
listings (the error return is always nil in the source and is omitted). -/
def scanAllDetailed (dirs : List FsDir) : List Tool :=
  scanDetailedDirs dirs []

/-! ## MetadataCollector (internal/collector/collector.go)

Invoking the executable with a flag is external: an input function maps
each flag to the observable outcome of cmd.CombinedOutput() — the
combined output bytes and whether err == nil (err is non-nil exactly
when the invocation fails or the process exits non-zero). -/

structure ExecOutcome where
  output : String
  errNil : Bool
deriving DecidableEq, Repr

/-- The fixed flag order of getVersion. -/
def versionFlags : List String := ["--version", "-version", "version", "-v"]

/-- The loop body of getVersion over the remaining flags: accept the first
flag with err == nil and len(output) > 0 whose first line is nonempty and
shorter than 200 bytes, returning that line trimmed; otherwise "". -/
def getVersionLoop (run : String → ExecOutcome) : List String → String
  | [] => ""
  | f :: fs =>
    if (run f).errNil && byteLen (run f).output > 0 then
      match splitOnStr (run f).output "\n" with
      | [] => getVersionLoop run fs
      | l0 :: _ =>
        if byteLen l0 > 0 && byteLen l0 < 200 then trimSpaceStr l0
        else getVersionLoop run fs
    else getVersionLoop run fs

/-- getVersion of collector.go. -/
def getVersion (run : String → ExecOutcome) : String :=
  getVersionLoop run versionFlags

/-- BuildCatalog of collector.go (time.Now().Format(time.RFC3339) is the
input `now`; TotalPackages and Packages are left at their zero values,
as in the source). -/
def buildCatalog (tools : List Tool) (searchPaths : List String)
    (now : String) : ToolCatalog :=
  { totalTools := tools.length
    paths := searchPaths
    tools := tools
    generatedAt := now }

/-! ## PackageDetector (internal/packages/detector.go) -/

/-- The fixed backend order of NewDetector. -/
def enabledManagers : List PkgManager :=
  [.npm, .pip, .brew, .cargo, .golang, .gem]

/-- The DetectAll loop: each backend's detectByManager call is an input
mapping the manager to its outcome (error, or a package list); a failing
backend is skipped and the rest are concatenated in order. -/
def detectAllLoop (res : PkgManager → Except Unit (List Package)) :
    List PkgManager → List Package
  | [] => []
  | m :: ms =>
    match res m with
    | .error _ => detectAllLoop res ms
    | .ok pkgs => pkgs ++ detectAllLoop res ms

/-- DetectAll of detector.go: it always returns its accumulated list with
a nil error (modelled as Except.ok). -/
def detectAll (res : PkgManager → Except Unit (List Package)) :
    Except Unit (List Package) :=
  .ok (detectAllLoop res enabledManagers)

/-- The parsing half of detectCargo, applied to the raw output of
cargo install --list.  Note the source trims each line BEFORE testing
strings.HasPrefix(line, " "), so that test can never be true. -/
def parseCargoOutput (out : String) : List Package :=
  (splitOnStr out "\n").flatMap fun line =>
    let l := trimSpaceStr line
    if l == "" || startsWithStr l " " then []
    else
      match goFields l with
      | n :: v :: _ =>
        [{ name := n, version := trimCut v ['v', ':'], manager := .cargo,
           globalInstall := true }]
      | _ => []

/-! ## PackageLinker (src/unnamed/part_006, package packages) -/

/-- The map built by NewLinker: pkgMap[pkg.Name] = pkg over the list in
order, so a later package overwrites an earlier one with the same name. -/
def buildPkgMap (pkgs : List Package) : String → Option Package :=
  pkgs.foldl (fun m p => fun k => if k == p.name then some p else m k)
    (fun _ => none)

/-- Setting the three package-association fields of a tool from a package,
as done at every link site. -/
def applyPkg (t : Tool) (p : Package) : Tool :=
  { t with packageName := p.name, packageManager := p.manager.str,
           packageVersion := p.version }

/-- The node_modules section of checkPath: package name is the path
component after the node_modules segment (two components when the first
begins with the "@" scope marker), looked up in the table. -/
def npmPathCheck (pm : String → Option Package) (pa : String) : Option Package :=
  if containsSub pa "node_modules" then
    match splitOnStr pa "node_modules" with
    | _ :: p1 :: _ =>
      match splitOnStr (trimCut p1 ['/']) "/" with
      | [] => none
      | seg0 :: segs =>
        pm (if startsWithStr seg0 "@" then
              match segs with
              | seg1 :: _ => seg0 ++ "/" ++ seg1
              | [] => seg0
            else seg0)
    | _ => none
  else none

/-- The Cellar/ sub-check of the Homebrew section of checkPath: the path
component after the Cellar/ segment, looked up in the table. -/
def brewCellarHit (pm : String → Option Package) (pa : String) : Option Package :=
  if containsSub pa "Cellar/" then
    match splitOnStr pa "Cellar/" with
    | _ :: p1 :: _ =>
      match splitOnStr p1 "/" with
      | seg0 :: _ => pm seg0
      | [] => none
    | _ => none
  else none

/-- The /opt/ sub-check of the Homebrew section of checkPath: the path
component after the first /opt/ segment, looked up in the table. -/
def brewOptHit (pm : String → Option Package) (pa : String) : Option Package :=
  if containsSub pa "/opt/" then
    match splitOnStr pa "/opt/" with
    | _ :: p1 :: _ =>
      match splitOnStr p1 "/" with
      | seg0 :: _ => pm seg0
      | [] => none
    | _ => none
  else none

/-- The Homebrew section of checkPath: the Cellar/ extraction, then the
/opt/ extraction. -/
def brewPathCheck (pm : String → Option Package) (pa : String) : Option Package :=
  if containsSub pa "/opt/homebrew/" || containsSub pa "/usr/local/Cellar/"
      || containsSub pa "Cellar/" then
    match brewCellarHit pm pa with
    | some p => some p
    | none => brewOptHit pm pa
  else none

/-- The cargo section of checkPath: the base filename looked up in the
table, kept only when the found package's manager is Cargo. -/
def cargoPathCheck (pm : String → Option Package) (pa : String) : Option Package :=
  match pm (filepathBase pa) with
  | some p => if p.manager == .cargo then some p else none
  | none => none

/-- checkPath of the linker: the sections in source order, with the
Python site-packages/.pyenv paths explicitly undetectable.  (The source
mutates the tool and returns true; here the matched package is returned,
the mutation being applyPkg at the caller.) -/
def checkPath (pm : String → Option Package) (pa : String) : Option Package :=
  match npmPathCheck pm pa with
  | some p => some p
  | none =>
    match brewPathCheck pm pa with
    | some p => some p
    | none =>
      if containsSub pa "site-packages" || containsSub pa ".pyenv" then none
      else if containsSub pa ".cargo/bin" then cargoPathCheck pm pa
      else none

/-- detectFromPath of the linker: try the tool's path, then (for a symlink
with a nonempty target) the raw symlink target. -/
def detectFromPath (pm : String → Option Package) (t : Tool) : Option Package :=
  match checkPath pm t.path with
  | some p => some p
  | none =>
    if t.isSymlink && t.symlinkTo != "" then checkPath pm t.symlinkTo
    else none

/-- The affix patterns tried by detectFromPatterns, in source order. -/
def affixForms (name : String) : List String :=
  [trimSuf name "-cli", trimPre name "cli-", trimSuf name "cli"]

/-- The loop of detectFromPatterns over the affix forms: the first form
that differs from the name and is in the package table wins. -/
def affixLookup (pm : String → Option Package) (name : String) :
    List String → Option Package
  | [] => none
  | f :: fs =>
    if f != name then
      match pm f with
      | some p => some p
      | none => affixLookup pm name fs
    else affixLookup pm name fs

/-- detectFromPatterns of the linker: affix stripping, then the scoped
(@scope/name) literal lookup. -/
def detectFromPatterns (pm : String → Option Package) (name : String) :
    Option Package :=
  match affixLookup pm name (affixForms name) with
  | some p => some p
  | none =>
    if startsWithStr name "@" && (splitOnStr name "/").length == 2 then pm name
    else none

/-- The tail of linkTool: after path-based detection, pattern detection
runs only when the tool still has an empty package name. -/
def linkToolPatterns (pm : String → Option Package) (t1 : Tool) : Tool :=
  if t1.packageName == "" then
    match detectFromPatterns pm t1.name with
    | some pkg => applyPkg t1 pkg
    | none => t1
  else t1

/-- linkTool of the linker: exact name match, else path-based detection,
else (when the tool is still without a package name) pattern detection. -/
def linkTool (pm : String → Option Package) (t : Tool) : Tool :=
  match pm t.name with
  | some pkg => applyPkg t pkg
  | none =>
    linkToolPatterns pm
      (match detectFromPath pm t with
       | some pkg => applyPkg t pkg
       | none => t)

/-- LinkTools of the linker: copy the slice and link each element in
place (a pure map in this embedding). -/
def linkTools (pkgs : List Package) (tools : List Tool) : List Tool :=
  tools.map (linkTool (buildPkgMap pkgs))

/-! ## AuditEngine (src/unnamed/part_002, cmd audit)

The Go audit groups tools with a map whose iteration order is
unspecified; here the group keys are taken in first-occurrence order,
which fixes one linearization of that unspecified order.  Per-group
content (the slices appended under one key) is order-faithful. -/

structure InstallationInfo where
  path : String
  packageName : String
  packageManager : String
  version : String
  isActive : Bool
deriving DecidableEq, Repr

structure ToolClash where
  toolName : String
  installations : List InstallationInfo
deriving DecidableEq, Repr

structure ShadowedTool where
  toolName : String
  activePath : String
  shadowedPath : String
  activePackage : String
  shadowedPackage : String
deriving DecidableEq, Repr

structure PackageManagerInfo where
  name : String
  packageCount : Nat
  toolCount : Nat
deriving DecidableEq, Repr

structure Recommendation where
  severity : String
  category : String
  issue : String
  action : String
deriving DecidableEq, Repr

structure AuditResult where
  totalTools : Nat
  packageManagedTools : Nat
  unmanagedTools : Nat
  clashes : List ToolClash
  shadowedTools : List ShadowedTool
  packageManagers : List PackageManagerInfo
  recommendations : List Recommendation
deriving DecidableEq, Repr

/-- Distinct elements in first-occurrence order (the key set of a Go map
built by appending under keys, linearized by first insertion). -/
def dedupFirstAux [BEq α] (seen : List α) : List α → List α
  | [] => []
  | a :: as =>
    if seen.contains a then dedupFirstAux seen as
    else a :: dedupFirstAux (a :: seen) as

/-- findClashes of the audit: among tools with a package name, a name
whose instances carry more than one distinct package name yields a clash
listing every instance, the first marked active. -/
def findClashes (tools : List Tool) : List ToolClash :=
  let linked := tools.filter (fun t => t.packageName != "")
  (dedupFirstAux [] (linked.map (fun t => t.name))).flatMap fun n =>
    let instances := linked.filter (fun t => t.name == n)
    if (dedupFirstAux [] (instances.map (fun t => t.packageName))).length > 1 then
      [{ toolName := n
         installations := instances.enum.map fun it =>
           { path := it.2.path, packageName := it.2.packageName,
             packageManager := it.2.packageManager,
             version := it.2.packageVersion, isActive := it.1 == 0 } }]
    else []

/-- findShadowedTools of the audit: every occurrence of a name after the
first is a shadowed record paired with the first occurrence. -/
def findShadowedTools (tools : List Tool) : List ShadowedTool :=
  (dedupFirstAux [] (tools.map (fun t => t.name))).flatMap fun n =>
    match tools.filter (fun t => t.name == n) with
    | a :: rest =>
      if rest.isEmpty then []
      else rest.map fun t =>
        { toolName := n, activePath := a.path, shadowedPath := t.path,
          activePackage := a.packageName, shadowedPackage := t.packageName }
    | [] => []

/-- Insertion step for the descending sort below. -/
def insertByToolCount (a : PackageManagerInfo) :
    List PackageManagerInfo → List PackageManagerInfo
  | [] => [a]
  | b :: bs =>
    if b.toolCount ≤ a.toolCount then a :: b :: bs
    else b :: insertByToolCount a bs

/-- Sort by ToolCount descending (the Go sort.Slice comparison; its order
among ties is unspecified, fixed here stably). -/
def sortByToolCount : List PackageManagerInfo → List PackageManagerInfo
  | [] => []
  | a :: as => insertByToolCount a (sortByToolCount as)

/-- analyzePackageManagers of the audit: per-manager package counts from
the package list, tool counts over tools whose manager is among those,
sorted by tool count descending. -/
def analyzePackageManagers (pkgs : List Package) (tools : List Tool) :
    List PackageManagerInfo :=
  let managers := dedupFirstAux [] (pkgs.map (fun p => p.manager.str))
  sortByToolCount (managers.map fun m =>
    { name := m
      packageCount := (pkgs.filter (fun p => p.manager.str == m)).length
      toolCount := (tools.filter (fun t => t.packageManager == m)).length })

/-- generateRecommendations of the audit.  The Go unmanaged-fraction test
is float64(unmanaged)/float64(total)*100 > 20; it is modelled by the
exact rational comparison 100*unmanaged > 20*total (for total = 0 the Go
expression is NaN and the comparison false, as here).  The Go low-severity
issue text also embeds that percentage formatted to one decimal place;
the float formatting is not modelled. -/
def generateRecommendations (result : AuditResult) : List Recommendation :=
  let recs : List Recommendation := []
  let recs := recs ++
    (if result.clashes.length > 0 then
      let k := result.clashes.length
      [{ severity := "high", category := "Installation Conflicts",
         issue := s!"Found {k} tools with multiple installations from different package managers",
         action := "Review conflicting installations and uninstall duplicates to avoid version conflicts. Use `cli-ai debug --clashes` for details." }]
    else [])
  let recs := recs ++
    (if result.shadowedTools.length > 0 then
      let k := result.shadowedTools.length
      [{ severity := "medium", category := "Shadowed Installations",
         issue := s!"Found {k} tools with shadowed installations that are not being used",
         action := "Remove unused installations to free up disk space and reduce confusion. The shadowed installations are not in use." }]
    else [])
  let recs := recs ++
    (if 100 * result.unmanagedTools > 20 * result.totalTools then
      let u := result.unmanagedTools
      let n := result.totalTools
      [{ severity := "low", category := "Package Management",
         issue := s!"{u}/{n} of tools are not managed by a package manager",
         action := "Consider installing tools via package managers (brew, npm, pip) for easier updates and management." }]
    else [])
  let recs := recs ++
    (if result.packageManagers.length == 1 then
      [{ severity := "low", category := "Package Management",
         issue := "Only using one package manager on your system",
         action := "This is good for consistency! Continue managing all tools through "
           ++ (match result.packageManagers with
               | i :: _ => i.name
               | [] => "") ++ "." }]
    else [])
  if recs.length == 0 then
    [{ severity := "info", category := "System Health",
       issue := "No issues detected",
       action := "Your CLI environment is well-maintained! All tools are properly managed and no conflicts detected." }]
  else recs

/-- performAudit of the audit command, up to the markdown rendering
(which is a display concern): counts, clashes, shadows, per-manager
statistics and recommendations. -/
def performAudit (tools : List Tool) (pkgs : List Package) : AuditResult :=
  let base : AuditResult :=
    { totalTools := tools.length
      packageManagedTools := (tools.filter (fun t => t.packageName != "")).length
      unmanagedTools := (tools.filter (fun t => t.packageName == "")).length
      clashes := findClashes tools
      shadowedTools := findShadowedTools tools
      packageManagers := analyzePackageManagers pkgs tools
      recommendations := [] }
  { base with recommendations := generateRecommendations base }

/-! ## Scanner lemmas: de-duplication by the seen set -/

theorem scanDetailedEntry_name {dir : String} {seen : List String} {e : FsEntry}
    {t : Tool} (h : scanDetailedEntry dir seen e = some t) :
    t.name = e.name ∧ ¬ e.name ∈ seen := by
  unfold scanDetailedEntry at h
  split at h
  · exact absurd h (by simp)
  split at h
  · exact absurd h (by simp)
  split at h
  · exact absurd h (by simp)
  split at h
  · exact absurd h (by simp)
  split at h
  · exact absurd h (by simp)
  rename_i h5
  constructor
  · cases hs : e.symlink <;> simp [hs] at h <;> simp [← h]
  · simpa using h5

theorem scanDetailedEntries_seen (dir : String) :
    ∀ (es : List FsEntry) (seen : List String),
      (scanDetailedEntries dir es seen).2 =
        ((scanDetailedEntries dir es seen).1.map Tool.name).reverse ++ seen := by
  intro es
  induction es with
  | nil => intro seen; simp [scanDetailedEntries]
  | cons e es ih =>
    intro seen
    unfold scanDetailedEntries
    cases h : scanDetailedEntry dir seen e with
    | none => simpa using ih seen
    | some t =>
      have hn := (scanDetailedEntry_name h).1
      simp only []
      rw [ih (e.name :: seen)]
      simp [hn]

theorem scanDetailedEntries_fresh (dir : String) :
    ∀ (es : List FsEntry) (seen : List String) (t : Tool),
      t ∈ (scanDetailedEntries dir es seen).1 → ¬ t.name ∈ seen := by
  intro es
  induction es with
  | nil => intro seen t ht; simp [scanDetailedEntries] at ht
  | cons e es ih =>
    intro seen t ht
    unfold scanDetailedEntries at ht
    cases h : scanDetailedEntry dir seen e with
    | none =>
      rw [h] at ht
      exact ih seen t ht
    | some t0 =>
      rw [h] at ht
      simp only [List.mem_cons] at ht
      rcases ht with rfl | ht
      · have hn := scanDetailedEntry_name h
        rw [hn.1]; exact hn.2
      · have := ih (e.name :: seen) t ht
        intro hmem
        exact this (List.mem_cons_of_mem _ hmem)

theorem scanDetailedEntries_nodup (dir : String) :
    ∀ (es : List FsEntry) (seen : List String),
      ((scanDetailedEntries dir es seen).1.map Tool.name).Nodup := by
  intro es
  induction es with
  | nil => intro seen; simp [scanDetailedEntries]
  | cons e es ih =>
    intro seen
    unfold scanDetailedEntries
    cases h : scanDetailedEntry dir seen e with
    | none => exact ih seen
    | some t0 =>
      simp only [List.map_cons, List.nodup_cons]
      refine ⟨?_, ih (e.name :: seen)⟩
      intro hmem
      rcases List.mem_map.1 hmem with ⟨u, hu, hname⟩
      have hfresh := scanDetailedEntries_fresh dir es (e.name :: seen) u hu
      have hn0 := (scanDetailedEntry_name h).1
      exact hfresh (by rw [hname, hn0]; exact List.mem_cons_self _ _)

theorem scanDetailedDirs_fresh :
    ∀ (ds : List FsDir) (seen : List String) (t : Tool),
      t ∈ scanDetailedDirs ds seen → ¬ t.name ∈ seen := by
  intro ds
  induction ds with
  | nil => intro seen t ht; simp [scanDetailedDirs] at ht
  | cons d ds ih =>
    intro seen t ht
    unfold scanDetailedDirs at ht
    cases h : d.entries with
    | none => rw [h] at ht; exact ih seen t ht
    | some es =>
      rw [h] at ht
      simp only [List.mem_append] at ht
      rcases ht with ht | ht
      · exact scanDetailedEntries_fresh d.path es seen t ht
      · have := ih _ t ht
        rw [scanDetailedEntries_seen d.path es seen] at this
        intro hmem
        exact this (List.mem_append_right _ hmem)

theorem scanDetailedDirs_nodup :
    ∀ (ds : List FsDir) (seen : List String),
      ((scanDetailedDirs ds seen).map Tool.name).Nodup := by
  intro ds
  induction ds with
  | nil => intro seen; simp [scanDetailedDirs]
  | cons d ds ih =>
    intro seen
    unfold scanDetailedDirs
    cases h : d.entries with
    | none => exact ih seen
    | some es =>
      simp only [List.map_append]
      refine List.Nodup.append (scanDetailedEntries_nodup d.path es seen) (ih _) ?_
      intro n hn1 hn2
      rcases List.mem_map.1 hn2 with ⟨u, hu, hname⟩
      have := scanDetailedDirs_fresh ds _ u hu
      rw [scanDetailedEntries_seen d.path es seen] at this
      exact this (List.mem_append_left _ (by rw [hname]; simpa using hn1))

/-- Names produced by the detailed scan are pairwise distinct. -/
theorem scanAllDetailed_names_nodup (dirs : List FsDir) :
    ((scanAllDetailed dirs).map Tool.name).Nodup :=
  scanDetailedDirs_nodup dirs []

/-! ## Shadow detection over name-distinct tool lists -/

theorem filter_name_len_le_one {tools : List Tool}
    (h : (tools.map Tool.name).Nodup) (n : String) :
    (tools.filter (fun t => t.name == n)).length ≤ 1 := by
  induction tools with
  | nil => simp
  | cons t ts ih =>
    simp only [List.map_cons, List.nodup_cons] at h
    by_cases hn : t.name == n
    · have hnil : ts.filter (fun u => u.name == n) = [] := by
        refine List.filter_eq_nil_iff.2 ?_
        intro u hu hun
        apply h.1
        refine List.mem_map.2 ⟨u, hu, ?_⟩
        rw [eq_of_beq hun, ← eq_of_beq hn]
      simp [hn, hnil]
    · simpa [hn] using ih h.2

theorem flatMap_eq_nil_of_forall {α β : Type} {l : List α} {f : α → List β}
    (h : ∀ a ∈ l, f a = []) : l.flatMap f = [] := by
  induction l with
  | nil => rfl
  | cons a as ih =>
    simp only [List.flatMap_cons]
    rw [h a (List.mem_cons_self _ _), ih (fun b hb => h b (List.mem_cons_of_mem _ hb))]
    rfl

/-- Over a tool list with pairwise-distinct names, findShadowedTools finds
nothing: every name group has at most one occurrence. -/
theorem findShadowedTools_eq_nil {tools : List Tool}
    (h : (tools.map Tool.name).Nodup) :
    findShadowedTools tools = [] := by
  unfold findShadowedTools
  apply flatMap_eq_nil_of_forall
  intro n _
  have hlen := filter_name_len_le_one h n
  cases hfil : tools.filter (fun t => t.name == n) with
  | nil => rfl
  | cons a rest =>
    rw [hfil] at hlen
    simp only [List.length_cons] at hlen
    have : rest = [] := List.eq_nil_of_length_eq_zero (by omega)
    simp [this]

/-! ## Linker frame lemmas -/

/-- The fields of a Tool other than the three package-association
fields. -/
def frameOf (t : Tool) :
    String × String × Int × Bool × String × String × String × String × List String :=
  (t.name, t.path, t.size, t.isSymlink, t.symlinkTo, t.version, t.helpText,
   t.description, t.aliases)

theorem frameOf_applyPkg (t : Tool) (p : Package) :
    frameOf (applyPkg t p) = frameOf t := rfl

theorem frameOf_linkToolPatterns (pm : String → Option Package) (t1 : Tool) :
    frameOf (linkToolPatterns pm t1) = frameOf t1 := by
  unfold linkToolPatterns
  split
  · split
    · exact frameOf_applyPkg _ _
    · rfl
  · rfl

theorem frameOf_linkTool (pm : String → Option Package) (t : Tool) :
    frameOf (linkTool pm t) = frameOf t := by
  unfold linkTool
  split
  · exact frameOf_applyPkg _ _
  · rw [frameOf_linkToolPatterns]
    split
    · exact frameOf_applyPkg _ _
    · rfl

theorem linkTool_name (pm : String → Option Package) (t : Tool) :
    (linkTool pm t).name = t.name :=
  congrArg (fun fr => fr.1) (frameOf_linkTool pm t)

theorem linkTools_map_name (pkgs : List Package) (tools : List Tool) :
    (linkTools pkgs tools).map Tool.name = tools.map Tool.name := by
  unfold linkTools
  rw [List.map_map]
  exact List.map_congr_left (fun t _ => linkTool_name _ t)

/-! ## Claim C4 -/

/-- C4: for every tool list produced by the detailed scan, the catalog
built from it has total_tools equal to the length of its tools list, and
the names in that list are pairwise distinct; the same holds after the
linker has run over the scan result (the pipeline order used by the
export command), since linking preserves names. -/
theorem catalog_counts_and_distinct_names (dirs : List FsDir)
    (searchPaths : List String) (now : String) (pkgs : List Package) :
    ((buildCatalog (scanAllDetailed dirs) searchPaths now).totalTools =
        (buildCatalog (scanAllDetailed dirs) searchPaths now).tools.length ∧
      ((buildCatalog (scanAllDetailed dirs) searchPaths now).tools.map
        Tool.name).Nodup) ∧
    ((buildCatalog (linkTools pkgs (scanAllDetailed dirs)) searchPaths now).totalTools =
        (buildCatalog (linkTools pkgs (scanAllDetailed dirs)) searchPaths now).tools.length ∧
      ((buildCatalog (linkTools pkgs (scanAllDetailed dirs)) searchPaths now).tools.map
        Tool.name).Nodup) := by
  refine ⟨⟨rfl, scanAllDetailed_names_nodup dirs⟩, rfl, ?_⟩
  show ((linkTools pkgs (scanAllDetailed dirs)).map Tool.name).Nodup
  rw [linkTools_map_name]
  exact scanAllDetailed_names_nodup dirs

/-! ## Claim C1 -/

/-- The spec scenario: search path [/a, /b]; /a holds executable foo
(size 10); /b holds executable foo (size 20) and executable bar (size 5). -/
def scenarioAB : List FsDir :=
  [⟨"/a", some [{ name := "foo", size := 10 }]⟩,
   ⟨"/b", some [{ name := "foo", size := 20 }, { name := "bar", size := 5 }]⟩]

/-- C1 (code bug): the audit command runs over the output of
ScanAllDetailed, which de-duplicates names, so findShadowedTools can
never find a name at two paths: the audit pipeline reports NO
shadowed-tool record for any configuration, where the claim (and the
spec's shadow-detection contract) demands one per shadowed occurrence.
Concretely, on the spec's own scenario the detailed scan keeps only
/a/foo (dropping /b/foo) and the audit's shadowed list is empty instead
of containing the record (foo, active=/a/foo, shadowed=/b/foo). -/
theorem audit_pipeline_reports_no_shadowed_tools :
    (∀ (dirs : List FsDir) (pkgs : List Package),
      (performAudit (linkTools pkgs (scanAllDetailed dirs)) pkgs).shadowedTools = []) ∧
    scanAllDetailed scenarioAB =
      [{ name := "foo", path := "/a/foo", size := 10 },
       { name := "bar", path := "/b/bar", size := 5 }] ∧
    (performAudit (linkTools [] (scanAllDetailed scenarioAB)) []).shadowedTools = [] := by
  refine ⟨?_, by decide, by decide⟩
  intro dirs pkgs
  show (performAudit (linkTools pkgs (scanAllDetailed dirs)) pkgs).shadowedTools = []
  unfold performAudit
  simp only []
  apply findShadowedTools_eq_nil
  rw [linkTools_map_name]
  exact scanAllDetailed_names_nodup dirs

/-! ## Claim C5 -/

/-- C5: LinkTools returns a list of the same length and order in which
each tool agrees with the corresponding input tool on every field other
than the three package-association fields (frameOf collects exactly the
other nine fields).  The Go function copies the slice before linking, so
the input list is untouched; in this pure embedding that is immediate
from linkTools being a function of its arguments. -/
theorem linkTools_preserves_frame (pkgs : List Package) (tools : List Tool) :
    (linkTools pkgs tools).length = tools.length ∧
    (linkTools pkgs tools).map frameOf = tools.map frameOf := by
  constructor
  · simp [linkTools]
  · unfold linkTools
    rw [List.map_map]
    exact List.map_congr_left (fun t _ => frameOf_linkTool _ t)

/-! ## Claim C3 -/

theorem buildPkgMap_eq_getLast (pkgs : List Package) (k : String) :
    buildPkgMap pkgs k = (pkgs.filter (fun p => p.name == k)).getLast? := by
  induction pkgs using List.reverseRecOn with
  | nil => rfl
  | append_singleton ps p ih =>
    unfold buildPkgMap
    rw [List.foldl_append]
    simp only [List.foldl_cons, List.foldl_nil]
    show (if k == p.name then some p else buildPkgMap ps k) = _
    rw [List.filter_append]
    by_cases hk : p.name = k
    · simp [hk, List.getLast?_concat]
    · have h1 : (k == p.name) = false := by
        simp [beq_iff_eq]
        exact fun he => hk he.symm
      have hb : (p.name == k) = false := beq_eq_false_iff_ne.2 hk
      have h2 : [p].filter (fun q => q.name == k) = [] := by
        simp [List.filter, hb]
      rw [h2, List.append_nil, ih] at *
      simp [h1]

/-- The exact-name strategy of linkTool: when the table has an entry for
the tool's name, that entry's fields are applied and no later strategy
runs. -/
theorem linkTool_exact (pm : String → Option Package) (t : Tool) (p : Package)
    (h : pm t.name = some p) : linkTool pm t = applyPkg t p := by
  unfold linkTool
  rw [h]

/-- C3: when the package list contains a package whose name equals the
tool's name (the table entry for that name, which is the last such
package in detection order), LinkTools links the tool to it, setting the
three package fields from it and stopping before the path-derived and
pattern strategies regardless of what they would match. -/
theorem exact_name_match_wins (pkgs : List Package) (tools : List Tool)
    (i : Nat) (t : Tool) (p : Package)
    (hidx : tools[i]? = some t)
    (hlast : (pkgs.filter (fun q => q.name == t.name)).getLast? = some p) :
    p.name = t.name ∧
    (linkTools pkgs tools)[i]? = some { t with
      packageName := p.name,
      packageManager := p.manager.str,
      packageVersion := p.version } := by
  have hmem : p ∈ pkgs.filter (fun q => q.name == t.name) :=
    List.mem_of_mem_getLast? hlast
  have hname : p.name = t.name := by
    have := (List.mem_filter.1 hmem).2
    exact eq_of_beq this
  refine ⟨hname, ?_⟩
  unfold linkTools
  rw [List.getElem?_map, hidx, Option.map_some']
  have hpm : buildPkgMap pkgs t.name = some p := by
    rw [buildPkgMap_eq_getLast, hlast]
  rw [linkTool_exact _ _ _ hpm]
  rfl

def witToolWidget : Tool :=
  { name := "widget", path := "/usr/local/Cellar/rg/1.0/bin/widget" }

def witPkgWidget : Package := { name := "widget", version := "2.1", manager := .brew }

def witPkgRg : Package := { name := "rg", version := "1.0", manager := .cargo }

/-- Witness for C3 at a concrete input: the tool widget sits in a Cellar
path that the path-derived strategy would resolve to the package rg, yet
the exact-name package widget wins. -/
theorem exact_name_match_wins_witness :
    witPkgWidget.name = witToolWidget.name ∧
    (linkTools [witPkgWidget, witPkgRg] [witToolWidget])[0]? =
      some { witToolWidget with
        packageName := witPkgWidget.name,
        packageManager := witPkgWidget.manager.str,
        packageVersion := witPkgWidget.version } :=
  exact_name_match_wins [witPkgWidget, witPkgRg] [witToolWidget] 0
    witToolWidget witPkgWidget (by decide) (by decide)

/-! ## Claim C10: every linked package comes out of the linker's table,
and the table keeps the last same-named package -/

theorem npmPathCheck_sound {pm : String → Option Package} {pa : String}
    {p : Package} (h : npmPathCheck pm pa = some p) : ∃ k, pm k = some p := by
  unfold npmPathCheck at h
  repeat' split at h
  all_goals first
    | exact ⟨_, h⟩
    | simp_all

theorem brewCellarHit_sound {pm : String → Option Package} {pa : String}
    {p : Package} (h : brewCellarHit pm pa = some p) : ∃ k, pm k = some p := by
  unfold brewCellarHit at h
  repeat' split at h
  all_goals first
    | exact ⟨_, h⟩
    | simp_all

theorem brewOptHit_sound {pm : String → Option Package} {pa : String}
    {p : Package} (h : brewOptHit pm pa = some p) : ∃ k, pm k = some p := by
  unfold brewOptHit at h
  repeat' split at h
  all_goals first
    | exact ⟨_, h⟩
    | simp_all

theorem brewPathCheck_sound {pm : String → Option Package} {pa : String}
    {p : Package} (h : brewPathCheck pm pa = some p) : ∃ k, pm k = some p := by
  unfold brewPathCheck at h
  split at h
  · split at h
    · rename_i q heq
      injection h with h
      subst h
      exact brewCellarHit_sound heq
    · exact brewOptHit_sound h
  · exact absurd h (by simp)

theorem cargoPathCheck_sound {pm : String → Option Package} {pa : String}
    {p : Package} (h : cargoPathCheck pm pa = some p) : ∃ k, pm k = some p := by
  unfold cargoPathCheck at h
  split at h
  · rename_i q heq
    split at h
    · injection h with h
      subst h
      exact ⟨_, heq⟩
    · exact absurd h (by simp)
  · exact absurd h (by simp)

theorem checkPath_sound {pm : String → Option Package} {pa : String}
    {p : Package} (h : checkPath pm pa = some p) : ∃ k, pm k = some p := by
  unfold checkPath at h
  split at h
  · rename_i q heq
    injection h with h
    subst h
    exact npmPathCheck_sound heq
  · split at h
    · rename_i q heq
      injection h with h
      subst h
      exact brewPathCheck_sound heq
    · split at h
      · exact absurd h (by simp)
      · split at h
        · exact cargoPathCheck_sound h
        · exact absurd h (by simp)

theorem detectFromPath_sound {pm : String → Option Package} {t : Tool}
    {p : Package} (h : detectFromPath pm t = some p) : ∃ k, pm k = some p := by
  unfold detectFromPath at h
  split at h
  · rename_i q heq
    injection h with h
    subst h
    exact checkPath_sound heq
  · split at h
    · exact checkPath_sound h
    · exact absurd h (by simp)

theorem affixLookup_sound {pm : String → Option Package} {name : String}
    {p : Package} :
    ∀ {forms : List String}, affixLookup pm name forms = some p →
      ∃ k, pm k = some p := by
  intro forms
  induction forms with
  | nil => intro h; simp [affixLookup] at h
  | cons f fs ih =>
    intro h
    unfold affixLookup at h
    split at h
    · split at h
      · rename_i q heq
        injection h with h
        subst h
        exact ⟨f, heq⟩
      · exact ih h
    · exact ih h

theorem detectFromPatterns_sound {pm : String → Option Package} {name : String}
    {p : Package} (h : detectFromPatterns pm name = some p) :
    ∃ k, pm k = some p := by
  unfold detectFromPatterns at h
  split at h
  · rename_i q heq
    injection h with h
    subst h
    exact affixLookup_sound heq
  · split at h
    · exact ⟨name, h⟩
    · exact absurd h (by simp)

theorem applyPkg_applyPkg (t : Tool) (p q : Package) :
    applyPkg (applyPkg t p) q = applyPkg t q := rfl

theorem linkToolPatterns_cases (pm : String → Option Package) (t1 : Tool) :
    linkToolPatterns pm t1 = t1 ∨
      ∃ q, detectFromPatterns pm t1.name = some q ∧
        linkToolPatterns pm t1 = applyPkg t1 q := by
  unfold linkToolPatterns
  split
  · cases hq : detectFromPatterns pm t1.name with
    | none => left; rfl
    | some q => right; exact ⟨q, rfl, rfl⟩
  · left; rfl

/-- C10 (implicit): the linker's lookup table, built by inserting the
packages in detection order, maps each name to the LAST package of that
name in the list (earlier same-named packages are overwritten); and every
link any strategy makes reads its package out of that table, so a tool
can only ever be linked to a table value, never to an overwritten earlier
package. -/
theorem pkg_map_last_package_wins (pkgs : List Package) :
    (∀ k, buildPkgMap pkgs k = (pkgs.filter (fun p => p.name == k)).getLast?) ∧
    (∀ t, linkTool (buildPkgMap pkgs) t = t ∨
      ∃ k p, buildPkgMap pkgs k = some p ∧
        linkTool (buildPkgMap pkgs) t = applyPkg t p) := by
  refine ⟨buildPkgMap_eq_getLast pkgs, ?_⟩
  intro t
  unfold linkTool
  cases hm : buildPkgMap pkgs t.name with
  | some pkg => exact Or.inr ⟨t.name, pkg, hm, rfl⟩
  | none =>
    cases hd : detectFromPath (buildPkgMap pkgs) t with
    | some pkg =>
      rcases linkToolPatterns_cases (buildPkgMap pkgs) (applyPkg t pkg) with hc | ⟨q, hq, hc⟩
      · rw [hc]
        rcases detectFromPath_sound hd with ⟨k, hk⟩
        exact Or.inr ⟨k, pkg, hk, rfl⟩
      · rw [hc, applyPkg_applyPkg]
        rcases detectFromPatterns_sound hq with ⟨k, hk⟩
        exact Or.inr ⟨k, q, hk, rfl⟩
    | none =>
      rcases linkToolPatterns_cases (buildPkgMap pkgs) t with hc | ⟨q, hq, hc⟩
      · rw [hc]; exact Or.inl rfl
      · rw [hc]
        rcases detectFromPatterns_sound hq with ⟨k, hk⟩
        exact Or.inr ⟨k, q, hk, rfl⟩

/-! ## Claim C8 -/

theorem detectFromPatterns_of_affix (pm : String → Option Package)
    (name : String) (p : Package)
    (haffix : affixLookup pm name (affixForms name) = some p) :
    detectFromPatterns pm name = some p := by
  unfold detectFromPatterns
  rw [haffix]

theorem linkToolPatterns_links (pm : String → Option Package) (t1 : Tool)
    (p : Package) (hempty : t1.packageName = "")
    (hpat : detectFromPatterns pm t1.name = some p) :
    linkToolPatterns pm t1 = applyPkg t1 p := by
  unfold linkToolPatterns
  rw [hempty]
  simp [hpat]

/-- C8: for a tool with no exact-name table entry and no path-derived
match, when stripping one of the CLI affixes (trailing -cli, leading
cli-, trailing cli, tried in that order) yields a name present in the
package table, LinkTools links the tool to that package. -/
theorem affix_fallback_links (pkgs : List Package) (tools : List Tool)
    (i : Nat) (t : Tool) (p : Package)
    (hidx : tools[i]? = some t)
    (hempty : t.packageName = "")
    (hnoexact : buildPkgMap pkgs t.name = none)
    (hnopath : detectFromPath (buildPkgMap pkgs) t = none)
    (haffix : affixLookup (buildPkgMap pkgs) t.name (affixForms t.name) = some p) :
    (linkTools pkgs tools)[i]? = some { t with
      packageName := p.name,
      packageManager := p.manager.str,
      packageVersion := p.version } := by
  unfold linkTools
  rw [List.getElem?_map, hidx, Option.map_some']
  unfold linkTool
  rw [hnoexact, hnopath]
  show some (linkToolPatterns (buildPkgMap pkgs) t) = _
  rw [linkToolPatterns_links (buildPkgMap pkgs) t p hempty
    (detectFromPatterns_of_affix _ _ _ haffix)]
  rfl

def witToolMy : Tool := { name := "mytool-cli", path := "/usr/local/bin/mytool-cli" }

def witPkgMy : Package := { name := "mytool", version := "3.1", manager := .brew }

/-- Witness for C8 at the spec's own scenario: the tool mytool-cli with
no exact-name match is linked to the package mytool through the
pattern-fallback strategy. -/
theorem affix_fallback_links_witness :
    (linkTools [witPkgMy] [witToolMy])[0]? = some { witToolMy with
      packageName := witPkgMy.name,
      packageManager := witPkgMy.manager.str,
      packageVersion := witPkgMy.version } :=
  affix_fallback_links [witPkgMy] [witToolMy] 0 witToolMy witPkgMy
    (by decide) (by decide) (by decide) (by decide) (by decide)

/-! ## Claim C2 -/

/-- The acceptance condition getVersion applies to one flag's outcome:
err == nil AND nonempty output AND a nonempty first line of fewer than
200 bytes. -/
def versionAccept (r : ExecOutcome) : Bool :=
  r.errNil && byteLen r.output > 0 &&
    (match splitOnStr r.output "\n" with
     | [] => false
     | l0 :: _ => byteLen l0 > 0 && byteLen l0 < 200)

/-- The value getVersion returns for an accepted outcome: the trimmed
first line of the output. -/
def firstLineTrimmed (s : String) : String :=
  match splitOnStr s "\n" with
  | [] => ""
  | l0 :: _ => trimSpaceStr l0

theorem getVersionLoop_accept (run : String → ExecOutcome) (f : String)
    (fs : List String) (h : versionAccept (run f) = true) :
    getVersionLoop run (f :: fs) = firstLineTrimmed (run f).output := by
  unfold versionAccept at h
  unfold getVersionLoop firstLineTrimmed
  cases hsp : splitOnStr (run f).output "\n" with
  | nil => rw [hsp] at h; simp at h
  | cons l0 rest =>
    rw [hsp] at h
    simp only [Bool.and_eq_true] at h
    rw [if_pos (by simp [h.1.1, h.1.2])]
    simp [h.2.1, h.2.2]

theorem getVersionLoop_reject (run : String → ExecOutcome) (f : String)
    (fs : List String) (h : versionAccept (run f) = false) :
    getVersionLoop run (f :: fs) = getVersionLoop run fs := by
  unfold versionAccept at h
  conv_lhs => rw [getVersionLoop]
  cases hc : ((run f).errNil && byteLen (run f).output > 0) with
  | false => rw [if_neg (by simp [hc])]
  | true =>
    rw [if_pos (by simp [hc])]
    rw [hc] at h
    simp only [Bool.true_and] at h
    cases hsp : splitOnStr (run f).output "\n" with
    | nil => rfl
    | cons l0 rest =>
      rw [hsp] at h
      simp only [] at h
      simp [h]

def runC2 : String → ExecOutcome := fun f =>
  if f == "--version" then { output := "unknown option", errNil := false }
  else { output := "", errNil := true }

/-- C2 counterexample: an executable whose --version invocation prints
the short single line "unknown option" but exits non-zero (err != nil),
and which prints nothing under any other flag.  The claim says the probe
yields that line; getVersion actually checks err == nil first and
returns "". -/
theorem version_probe_inspects_exit_status :
    (runC2 "--version").output = "unknown option" ∧
    (runC2 "--version").errNil = false ∧
    getVersion runC2 = "" ∧
    getVersion runC2 ≠ "unknown option" := by decide

/-- C2 amended: the probe tries the flags in the fixed order --version,
-version, version, -v, and returns the trimmed first line of the first
flag whose invocation SUCCEEDS (err == nil) with nonempty output whose
first line is nonempty and under 200 bytes; a flag whose invocation
fails is skipped even when it produced output. -/
theorem version_probe_first_accepted_flag (run : String → ExecOutcome)
    (l1 l2 : List String) (f : String)
    (horder : versionFlags = l1 ++ f :: l2)
    (hskip : ∀ g ∈ l1, versionAccept (run g) = false)
    (hacc : versionAccept (run f) = true) :
    getVersion run = firstLineTrimmed (run f).output := by
  unfold getVersion
  rw [horder]
  clear horder
  revert hskip
  induction l1 with
  | nil =>
    intro _
    simpa using getVersionLoop_accept run f l2 hacc
  | cons g gs ih =>
    intro hskip
    rw [List.cons_append,
      getVersionLoop_reject run g _ (hskip g (List.mem_cons_self _ _))]
    exact ih (fun x hx => hskip x (List.mem_cons_of_mem _ hx))

def runC2W : String → ExecOutcome := fun f =>
  if f == "--version" then { output := "flag provided but not defined", errNil := false }
  else if f == "-version" then { output := "tool 1.2.3 \nbuilt today", errNil := true }
  else { output := "", errNil := true }

/-- Witness for the amended C2: --version fails (despite printing), so
the probe returns the trimmed first line of -version's output. -/
theorem version_probe_first_accepted_flag_witness :
    getVersion runC2W = "tool 1.2.3" := by
  have h := version_probe_first_accepted_flag runC2W ["--version"]
    ["version", "-v"] "-version" (by decide) (by decide) (by decide)
  rw [h]
  decide

/-! ## Claim C6 -/

theorem detectAllLoop_eq_join (res : PkgManager → Except Unit (List Package)) :
    ∀ ms : List PkgManager,
      detectAllLoop res ms =
        (ms.map (fun m => match res m with
          | .ok l => l
          | .error _ => [])).flatten := by
  intro ms
  induction ms with
  | nil => rfl
  | cons m rest ih =>
    rw [List.map_cons, List.flatten_cons, ← ih]
    conv_lhs => rw [detectAllLoop]
    cases hm : res m with
    | error e => simp
    | ok l => simp

theorem detectAllLoop_error_eq_ok_nil (res : PkgManager → Except Unit (List Package))
    (b : PkgManager) :
    ∀ ms : List PkgManager,
      detectAllLoop (fun m => if m == b then .error () else res m) ms =
        detectAllLoop (fun m => if m == b then .ok [] else res m) ms := by
  intro ms
  induction ms with
  | nil => rfl
  | cons m rest ih =>
    conv_lhs => rw [detectAllLoop]
    conv_rhs => rw [detectAllLoop]
    by_cases hm : m == b
    · simp only [if_pos hm]
      simpa using ih
    · simp only [if_neg hm]
      cases hr : res m with
      | error e => exact ih
      | ok l => exact congrArg (fun x => l ++ x) ih

/-- C6: DetectAll never returns an error (its error value is always nil),
a failing backend contributes exactly what a backend reporting zero
packages would contribute, leaving every other backend's packages in the
result, and the result is the concatenation of the per-backend package
lists in the fixed backend order npm, pip, brew, cargo, go, gem. -/
theorem detectAll_swallows_backend_failure
    (res : PkgManager → Except Unit (List Package)) (b : PkgManager) :
    (detectAll res).isOk = true ∧
    detectAll (fun m => if m == b then .error () else res m) =
      detectAll (fun m => if m == b then .ok [] else res m) ∧
    detectAll res = .ok ((enabledManagers.map (fun m => match res m with
      | .ok l => l
      | .error _ => [])).flatten) := by
  refine ⟨rfl, ?_, ?_⟩
  · unfold detectAll
    rw [detectAllLoop_error_eq_ok_nil res b enabledManagers]
  · unfold detectAll
    rw [detectAllLoop_eq_join res enabledManagers]

/-! ## Claim C9 -/

/-- C9 (code bug): detectCargo trims each line BEFORE testing for a
leading space, so the skip of indented continuation lines can never
trigger.  Real cargo continuation lines (a single indented binary name)
are still dropped, but only because they have fewer than two fields; an
indented line with two fields, such as one reading two spaces then
serde v1.0.219, produces a package record, where the claim (and the Go
code's own dead HasPrefix test) says every indented line is skipped.
The primary-line handling the claim describes does hold: name v:version
with the v/v: prefix trimmed. -/
theorem indented_cargo_line_parsed :
    parseCargoOutput "ripgrep v13.0.0:\n    rg\n" =
      [{ name := "ripgrep", version := "13.0.0", manager := .cargo,
         globalInstall := true }] ∧
    startsWithStr "  serde v1.0.219" " " = true ∧
    parseCargoOutput "  serde v1.0.219" =
      [{ name := "serde", version := "1.0.219", manager := .cargo,
         globalInstall := true }] := by decide

/-! ## Claim C7 -/

/-- The recommendation generateRecommendations emits for a single-manager
system (note its severity is the string "low"). -/
def singleManagerRec (n : String) : Recommendation :=
  { severity := "low", category := "Package Management",
    issue := "Only using one package manager on your system",
    action := "This is good for consistency! Continue managing all tools through "
      ++ n ++ "." }

/-- The recommendation generateRecommendations emits when no rule fires
(severity "info"). -/
def noIssuesRec : Recommendation :=
  { severity := "info", category := "System Health",
    issue := "No issues detected",
    action := "Your CLI environment is well-maintained! All tools are properly managed and no conflicts detected." }

def auditToolRg : Tool :=
  { name := "rg", path := "/usr/local/bin/rg", packageName := "ripgrep",
    packageManager := "brew", packageVersion := "13.0.0" }

def auditPkgRipgrep : Package :=
  { name := "ripgrep", version := "13.0.0", manager := .brew }

/-- C7 counterexample: an audit input with no clashes, no shadowed tools,
zero unmanaged tools and exactly one package manager.  The claim says
the recommendations contain a single-manager entry tagged with
informational severity; the code emits it with severity "low" (the
"info" tag is used only by the no-issues entry). -/
theorem single_manager_rec_not_informational :
    (performAudit [auditToolRg] [auditPkgRipgrep]).clashes = [] ∧
    (performAudit [auditToolRg] [auditPkgRipgrep]).shadowedTools = [] ∧
    (performAudit [auditToolRg] [auditPkgRipgrep]).unmanagedTools = 0 ∧
    (performAudit [auditToolRg] [auditPkgRipgrep]).packageManagers.length = 1 ∧
    (performAudit [auditToolRg] [auditPkgRipgrep]).recommendations.map
      Recommendation.severity = ["low"] ∧
    ¬ ∃ r ∈ (performAudit [auditToolRg] [auditPkgRipgrep]).recommendations,
      r.severity = "info" := by decide

/-- C7 amended: for an audit result with no clashes, no shadowed tools
and unmanaged fraction not exceeding 20 percent, a system with exactly
one package manager gets exactly the single-manager entry — tagged with
LOW severity, not an informational tag — and when additionally the
manager count is not one (so no rule fires at all), a single
informational ("info") no-issues entry is produced. -/
theorem single_manager_recommendation (result : AuditResult)
    (h1 : result.clashes = []) (h2 : result.shadowedTools = [])
    (h3 : 100 * result.unmanagedTools ≤ 20 * result.totalTools) :
    (∀ pmi : PackageManagerInfo, result.packageManagers = [pmi] →
      generateRecommendations result = [singleManagerRec pmi.name]) ∧
    (result.packageManagers.length ≠ 1 →
      generateRecommendations result = [noIssuesRec]) := by
  have hc : ¬ (result.clashes.length > 0) := by simp [h1]
  have hs : ¬ (result.shadowedTools.length > 0) := by simp [h2]
  have hu : ¬ (100 * result.unmanagedTools > 20 * result.totalTools) := by omega
  constructor
  · intro pmi hpm
    unfold generateRecommendations
    rw [if_neg hc, if_neg hs, if_neg hu, hpm]
    simp [singleManagerRec]
  · intro hlen
    unfold generateRecommendations
    rw [if_neg hc, if_neg hs, if_neg hu]
    have hfalse : (result.packageManagers.length == 1) = false := by
      simp [hlen]
    rw [hfalse]
    simp [noIssuesRec]

/-- Witness for the amended C7, applying it to the concrete audit input
of the counterexample. -/
theorem single_manager_recommendation_witness :
    generateRecommendations (performAudit [auditToolRg] [auditPkgRipgrep]) =
      [singleManagerRec "brew"] :=
  (single_manager_recommendation (performAudit [auditToolRg] [auditPkgRipgrep])
    (by decide) (by decide) (by decide)).1
    { name := "brew", packageCount := 1, toolCount := 1 } (by decide)

end CliAi
